import Mathlib

/-!
# Verification of the rnote stroke store's chronological ordering and engine task loop

A shallow embedding of `rnote-engine/src/store/chrono_comp.rs` and the parts of
`rnote-engine/src/engine.rs` that the specification talks about, together with
proofs and refutations of the specified properties.

Conventions of the embedding:
* `StrokeKey` (a slotmap key) is modelled as `Nat`.
* Rust `std::cmp::Ordering` is modelled by Lean's `Ordering` (`.lt`, `.eq`, `.gt`).
* The slotmap `stroke_components` is modelled by its key sequence in iteration
  order (the stroke payloads play no role in the verified properties), and the
  secondary map `chrono_components` by an association list.
* `u32` values (`t`, `chrono_counter`) are modelled as `Nat`, and the
  counter increment in `update_chrono_to_last` is taken modulo `2 ^ 32`, as
  the release-mode `u32` addition does (the castless assignment into
  `t: u32` forces the counter's type).
* rayon's `par_sort_unstable_by` is modelled in two complementary ways: by the
  executable comparison sort `List.insertionSort` with the same comparator
  (Rust's unstable sort degenerates to plain insertion sort on short slices),
  and by the contract relation `UnstableSortResult` that records only what an
  unstable sort guarantees: always a permutation of the input, adjacently
  non-descending when the comparator is a consistent total order on the
  input's elements, with no promise about the relative order of
  comparator-equal elements.
-/

namespace Rnote

/-- A stroke key: opaque unique handle, modelled as a natural number. -/
abbrev StrokeKey := Nat

/-- Rust `StrokeLayer` from `chrono_comp.rs`: `UserLayer(u32) | Highlighter | Image | Document`. -/
inductive StrokeLayer where
  | userLayer (n : Nat)
  | highlighter
  | image
  | document
deriving DecidableEq

/-- Rust `impl Default for StrokeLayer`: `Self::UserLayer(0)`. -/
def StrokeLayer.default : StrokeLayer := .userLayer 0

/-- Rust `impl Ord for StrokeLayer`, arm for arm from the Rust `match` in `cmp`. -/
def StrokeLayer.cmp : StrokeLayer → StrokeLayer → Ordering
  | .userLayer this_ul, .userLayer other_ul => compare this_ul other_ul
  | .userLayer _, _ => .gt
  | .highlighter, .userLayer _ => .lt
  | .highlighter, .highlighter => .eq
  | .highlighter, _ => .gt
  | .image, .userLayer _ => .lt
  | .image, .highlighter => .lt
  | .image, .image => .eq
  | .image, .document => .gt
  | .document, .document => .eq
  | .document, _ => .lt

/-- Rust `ChronoComponent` from `chrono_comp.rs`: a timestamp `t` and a `layer`. -/
structure ChronoComponent where
  t : Nat
  layer : StrokeLayer
deriving DecidableEq

/-- Rust `ChronoComponent::new(t, layer)`. -/
def ChronoComponent.new (t : Nat) (layer : StrokeLayer) : ChronoComponent :=
  { t := t, layer := layer }

/- ### Characterisation of `StrokeLayer.cmp` by a numeric encoding

The Rust comparator is an eleven-arm match; for the proofs we characterise it
as the lexicographic comparison of a rank pair. -/

/-- Position of a layer's constructor in the bottom-to-top chain. -/
def layerRank : StrokeLayer → Nat
  | .document => 0
  | .image => 1
  | .highlighter => 2
  | .userLayer _ => 3

/-- The user-layer number (0 for the system layers). -/
def layerSub : StrokeLayer → Nat
  | .userLayer n => n
  | _ => 0

theorem strokeLayer_cmp_eq_rank (a b : StrokeLayer) :
    StrokeLayer.cmp a b = (compare (layerRank a) (layerRank b)).then
      (compare (layerSub a) (layerSub b)) := by
  cases a <;> cases b <;> rfl

theorem natCompare_swap (a b : Nat) : compare a b = (compare b a).swap := by
  rcases Nat.lt_trichotomy a b with h | h | h
  · rw [Nat.compare_eq_lt.2 h, Nat.compare_eq_gt.2 h]; rfl
  · rw [Nat.compare_eq_eq.2 h, Nat.compare_eq_eq.2 h.symm]; rfl
  · rw [Nat.compare_eq_gt.2 h, Nat.compare_eq_lt.2 h]; rfl

theorem ordering_then_swap (x y : Ordering) : (x.then y).swap = x.swap.then y.swap := by
  cases x <;> cases y <;> rfl

theorem strokeLayer_cmp_swap (a b : StrokeLayer) :
    StrokeLayer.cmp a b = (StrokeLayer.cmp b a).swap := by
  rw [strokeLayer_cmp_eq_rank, strokeLayer_cmp_eq_rank, ordering_then_swap,
    natCompare_swap (layerRank a), natCompare_swap (layerSub a)]

/-- Unfolding of lexicographic rank comparison into arithmetic. -/
theorem rank_then_ne_gt (ra rb sa sb : Nat) :
    (compare ra rb).then (compare sa sb) ≠ Ordering.gt ↔
      ra < rb ∨ (ra = rb ∧ sa ≤ sb) := by
  rcases Nat.lt_trichotomy ra rb with h | h | h
  · rw [Nat.compare_eq_lt.2 h]
    simp [Ordering.then]
    omega
  · rw [Nat.compare_eq_eq.2 h]
    rcases Nat.lt_trichotomy sa sb with h2 | h2 | h2
    · rw [Nat.compare_eq_lt.2 h2]
      simp [Ordering.then]
      omega
    · rw [Nat.compare_eq_eq.2 h2]
      simp [Ordering.then]
      omega
    · rw [Nat.compare_eq_gt.2 h2]
      simp [Ordering.then]
      omega
  · rw [Nat.compare_eq_gt.2 h]
    simp [Ordering.then]
    omega

theorem rank_then_eq_eq (ra rb sa sb : Nat) :
    (compare ra rb).then (compare sa sb) = Ordering.eq ↔ ra = rb ∧ sa = sb := by
  rcases Nat.lt_trichotomy ra rb with h | h | h
  · rw [Nat.compare_eq_lt.2 h]
    simp [Ordering.then]
    omega
  · rw [Nat.compare_eq_eq.2 h]
    rcases Nat.lt_trichotomy sa sb with h2 | h2 | h2
    · rw [Nat.compare_eq_lt.2 h2]
      simp [Ordering.then]
      omega
    · rw [Nat.compare_eq_eq.2 h2]
      simp [Ordering.then]
      omega
    · rw [Nat.compare_eq_gt.2 h2]
      simp [Ordering.then]
      omega
  · rw [Nat.compare_eq_gt.2 h]
    simp [Ordering.then]
    omega

theorem rank_then_eq_lt (ra rb sa sb : Nat) :
    (compare ra rb).then (compare sa sb) = Ordering.lt ↔
      ra < rb ∨ (ra = rb ∧ sa < sb) := by
  rcases Nat.lt_trichotomy ra rb with h | h | h
  · rw [Nat.compare_eq_lt.2 h]
    simp [Ordering.then]
    omega
  · rw [Nat.compare_eq_eq.2 h]
    rcases Nat.lt_trichotomy sa sb with h2 | h2 | h2
    · rw [Nat.compare_eq_lt.2 h2]
      simp [Ordering.then]
      omega
    · rw [Nat.compare_eq_eq.2 h2]
      simp [Ordering.then]
      omega
    · rw [Nat.compare_eq_gt.2 h2]
      simp [Ordering.then]
      omega
  · rw [Nat.compare_eq_gt.2 h]
    simp [Ordering.then]
    omega

/-- The total order on layers that the spec describes:
`Document < Image < Highlighter < UserLayer(n)`, user layers by `n` ascending.
This definition follows the spec's words and is compared against the source's
`StrokeLayer.cmp`. -/
def StrokeLayer.specLt : StrokeLayer → StrokeLayer → Prop
  | .document, .document => False
  | .document, _ => True
  | .image, .document => False
  | .image, .image => False
  | .image, _ => True
  | .highlighter, .userLayer _ => True
  | .highlighter, _ => False
  | .userLayer m, .userLayer n => m < n
  | .userLayer _, _ => False

theorem specLt_iff_rank (a b : StrokeLayer) :
    StrokeLayer.specLt a b ↔
      layerRank a < layerRank b ∨ (layerRank a = layerRank b ∧ layerSub a < layerSub b) := by
  cases a <;> cases b <;> simp [StrokeLayer.specLt, layerRank, layerSub]

/- ### The stroke store -/

/-- Axis-aligned bounding box (`p2d::bounding_volume::AABB`): carried opaquely,
none of the verified properties computes with its coordinates. -/
structure AABB where
  mins : ℚ × ℚ
  maxs : ℚ × ℚ
deriving DecidableEq

/-- The slice of `StrokeStore` state that the chronological-ordering code reads
and writes:
* `stroke_components` — the keys of the stroke slotmap, in iteration order;
* `chrono_components` — the secondary map `HopSlotMap<StrokeKey, Arc<ChronoComponent>>`,
  modelled as an association list with unique keys;
* `chrono_counter` — the global `u32` counter (declared in `store.rs`; its
  type is forced by the castless assignment into `t : u32`), modelled as a
  `Nat` whose increment is performed modulo `2 ^ 32`;
* `key_tree` — the spatial index, modelled by its query function
  `keys_intersecting_bounds`, which returns an unordered list of hits. -/
structure StrokeStore where
  stroke_components : List StrokeKey
  chrono_components : List (StrokeKey × ChronoComponent)
  chrono_counter : Nat
  key_tree : AABB → List StrokeKey

/-- The comparator closure shared by `keys_sorted_chrono` and
`keys_sorted_chrono_intersecting_bounds`: look both keys up in
`chrono_components`; if both are present compare by layer, then by `t`;
otherwise return `Equal`. -/
def chronoOrdering (chrono_components : List (StrokeKey × ChronoComponent))
    (first second : StrokeKey) : Ordering :=
  match chrono_components.lookup first, chrono_components.lookup second with
  | some first_chrono, some second_chrono =>
    let layer_order := first_chrono.layer.cmp second_chrono.layer
    if layer_order ≠ Ordering.eq then layer_order
    else compare first_chrono.t second_chrono.t
  | _, _ => Ordering.eq

/-- The non-strict relation a comparison sort establishes between adjacent
output elements: the comparator does not say `Greater`. -/
def chronoLe (chrono_components : List (StrokeKey × ChronoComponent))
    (a b : StrokeKey) : Prop :=
  chronoOrdering chrono_components a b ≠ Ordering.gt

instance (c : List (StrokeKey × ChronoComponent)) : DecidableRel (chronoLe c) :=
  fun a b => inferInstanceAs (Decidable (chronoOrdering c a b ≠ Ordering.gt))

/-- Rust `StrokeStore::keys_sorted_chrono`: collect the keys of `stroke_components`
and sort them with the chrono comparator. The call to rayon's
`par_sort_unstable_by` is modelled by `List.insertionSort` with the same
comparator (the algorithm Rust's unstable sort itself runs on short slices);
the weaker contract of an unstable sort is captured by `UnstableSortResult`. -/
def keys_sorted_chrono (s : StrokeStore) : List StrokeKey :=
  s.stroke_components.insertionSort (chronoLe s.chrono_components)

/-- Rust `StrokeStore::keys_sorted_chrono_intersecting_bounds`: the same sort applied
to the spatial-index hits for `bounds` instead of to all keys. -/
def keys_sorted_chrono_intersecting_bounds (s : StrokeStore) (bounds : AABB) :
    List StrokeKey :=
  (s.key_tree bounds).insertionSort (chronoLe s.chrono_components)

/-- What rayon guarantees about `v.par_sort_unstable_by(cmp)`: the result is
always a permutation of the input; when the comparator is a consistent total
order on the input's elements (the API's requirement), the result is moreover
adjacently non-descending. With an inconsistent comparator the resulting
order is unspecified, and being *unstable* the sort never promises anything
about the relative order of comparator-equal elements. -/
def UnstableSortResult (cmp : StrokeKey → StrokeKey → Ordering)
    (input output : List StrokeKey) : Prop :=
  output.Perm input ∧
    (((∀ a ∈ input, ∀ b ∈ input, cmp a b = (cmp b a).swap)
        ∧ (∀ a ∈ input, ∀ b ∈ input, ∀ c ∈ input,
            cmp a b ≠ Ordering.gt → cmp b c ≠ Ordering.gt → cmp a c ≠ Ordering.gt)) →
      output.Chain' (fun a b => cmp a b ≠ Ordering.gt))

/-- In-place mutation of the chrono component stored under `key`
(`Arc::make_mut(chrono_comp).t = counter` through the `get_mut` reference),
expressed on the association list: set `t := n` on the entry whose key matches. -/
def setChronoT : List (StrokeKey × ChronoComponent) → StrokeKey → Nat →
    List (StrokeKey × ChronoComponent)
  | [], _, _ => []
  | (k, c) :: l, key, n =>
    if k = key then (k, { c with t := n }) :: setChronoT l key n
    else (k, c) :: setChronoT l key n

/-- Rust `StrokeStore::update_chrono_to_last`: if the key has a chrono component,
increment the global counter and set the component's `t` to it; otherwise do
nothing (the miss is only logged at debug level). The counter is a `u32`
(forced by the castless assignment into `t : u32`), so the increment is taken
modulo `2 ^ 32`, as release-mode Rust wraps it (a debug build would panic
instead). -/
def update_chrono_to_last (s : StrokeStore) (key : StrokeKey) : StrokeStore :=
  match s.chrono_components.lookup key with
  | some _ =>
    let counter := (s.chrono_counter + 1) % 2 ^ 32
    { s with
      chrono_counter := counter,
      chrono_components := setChronoT s.chrono_components key counter }
  | none => s

/- ### Properties of the chrono comparator -/

theorem ordering_ite_ne_eq (x y : Ordering) :
    (if x ≠ Ordering.eq then x else y) = x.then y := by
  cases x <;> simp [Ordering.then]

theorem ordering_then_assoc (x y z : Ordering) :
    (x.then y).then z = x.then (y.then z) := by
  cases x <;> cases y <;> rfl

theorem natCompare_ne_gt {x y : Nat} : compare x y ≠ Ordering.gt ↔ x ≤ y := by
  constructor
  · intro h
    by_contra hle
    exact h (Nat.compare_eq_gt.2 (by omega))
  · intro h hgt
    have := Nat.compare_eq_gt.1 hgt
    omega

theorem compare_then_ne_gt (x y : Nat) (o : Ordering) :
    (compare x y).then o ≠ Ordering.gt ↔ x < y ∨ (x = y ∧ o ≠ Ordering.gt) := by
  rcases Nat.lt_trichotomy x y with h | h | h
  · rw [Nat.compare_eq_lt.2 h]
    simp [Ordering.then]
    omega
  · subst h
    rw [Nat.compare_eq_eq.2 rfl]
    simp [Ordering.then]
  · rw [Nat.compare_eq_gt.2 h]
    simp [Ordering.then]
    exact ⟨by omega, fun heq => absurd heq (by omega)⟩

theorem compare_then_eq_eq (x y : Nat) (o : Ordering) :
    (compare x y).then o = Ordering.eq ↔ x = y ∧ o = Ordering.eq := by
  rcases Nat.lt_trichotomy x y with h | h | h
  · rw [Nat.compare_eq_lt.2 h]
    simp [Ordering.then]
    rintro rfl
    omega
  · subst h
    rw [Nat.compare_eq_eq.2 rfl]
    simp [Ordering.then]
  · rw [Nat.compare_eq_gt.2 h]
    simp [Ordering.then]
    rintro rfl
    omega

/-- With both chrono components present, the comparator is the lexicographic
comparison of `(layer rank, user-layer number, t)`. -/
theorem chronoOrdering_of_some {c : List (StrokeKey × ChronoComponent)}
    {a b : StrokeKey} {ca cb : ChronoComponent}
    (ha : c.lookup a = some ca) (hb : c.lookup b = some cb) :
    chronoOrdering c a b =
      (compare (layerRank ca.layer) (layerRank cb.layer)).then
        ((compare (layerSub ca.layer) (layerSub cb.layer)).then (compare ca.t cb.t)) := by
  unfold chronoOrdering
  rw [ha, hb]
  simp only [ordering_ite_ne_eq, strokeLayer_cmp_eq_rank, ordering_then_assoc]

/-- If either key has no chrono component, the comparator returns `Equal`. -/
theorem chronoOrdering_of_none {c : List (StrokeKey × ChronoComponent)}
    {a b : StrokeKey} (h : c.lookup a = none ∨ c.lookup b = none) :
    chronoOrdering c a b = Ordering.eq := by
  unfold chronoOrdering
  rcases h with h | h
  · rw [h]
  · rw [h]
    cases c.lookup a <;> rfl

theorem chronoOrdering_swap (c : List (StrokeKey × ChronoComponent))
    (a b : StrokeKey) : chronoOrdering c a b = (chronoOrdering c b a).swap := by
  rcases ha : c.lookup a with _ | ca
  · rw [chronoOrdering_of_none (Or.inl ha), chronoOrdering_of_none (Or.inr ha)]
    rfl
  · rcases hb : c.lookup b with _ | cb
    · rw [chronoOrdering_of_none (Or.inr hb), chronoOrdering_of_none (Or.inl hb)]
      rfl
    · rw [chronoOrdering_of_some ha hb, chronoOrdering_of_some hb ha,
        ordering_then_swap, ordering_then_swap,
        natCompare_swap (layerRank ca.layer), natCompare_swap (layerSub ca.layer),
        natCompare_swap ca.t]

/-- The comparator-induced `≤` is total (this holds for every store state,
defective or not, because a missing component makes the comparator symmetric). -/
theorem chronoLe_total (c : List (StrokeKey × ChronoComponent)) (a b : StrokeKey)
    (h : ¬ chronoLe c a b) : chronoLe c b a := by
  unfold chronoLe at h ⊢
  rw [not_not] at h
  rw [chronoOrdering_swap] at h
  intro hba
  rw [hba] at h
  exact absurd h (by decide)

/-- Transitivity of the comparator-induced `≤` on keys that all have chrono
components. -/
theorem chronoLe_trans_of_some {c : List (StrokeKey × ChronoComponent)}
    {a b d : StrokeKey} {ca cb cd : ChronoComponent}
    (ha : c.lookup a = some ca) (hb : c.lookup b = some cb)
    (hd : c.lookup d = some cd)
    (hab : chronoLe c a b) (hbd : chronoLe c b d) : chronoLe c a d := by
  unfold chronoLe at hab hbd ⊢
  rw [chronoOrdering_of_some ha hb] at hab
  rw [chronoOrdering_of_some hb hd] at hbd
  rw [chronoOrdering_of_some ha hd]
  rw [compare_then_ne_gt, compare_then_ne_gt, natCompare_ne_gt] at hab hbd ⊢
  omega

/-- Two keys with chrono components compare `Equal` exactly when their
components carry the same layer and the same `t`. -/
theorem layerRank_sub_inj {x y : StrokeLayer}
    (h1 : layerRank x = layerRank y) (h2 : layerSub x = layerSub y) : x = y := by
  cases x <;> cases y <;> simp_all [layerRank, layerSub]

theorem chronoOrdering_eq_iff_of_some {c : List (StrokeKey × ChronoComponent)}
    {a b : StrokeKey} {ca cb : ChronoComponent}
    (ha : c.lookup a = some ca) (hb : c.lookup b = some cb) :
    chronoOrdering c a b = Ordering.eq ↔ ca = cb := by
  rw [chronoOrdering_of_some ha hb, compare_then_eq_eq, compare_then_eq_eq]
  constructor
  · rintro ⟨h1, h2, h3⟩
    have hlayer : ca.layer = cb.layer := layerRank_sub_inj h1 h2
    have ht : ca.t = cb.t := Nat.compare_eq_eq.1 h3
    cases ca
    cases cb
    simp_all
  · rintro rfl
    exact ⟨rfl, rfl, Nat.compare_eq_eq.2 rfl⟩

/- ### Localised sortedness lemmas for `List.insertionSort`

Mathlib's `sorted_insertionSort` needs `IsTrans` globally, but the chrono
comparator is transitive only on keys that have chrono components, so we prove
variants whose hypotheses are scoped to the members of the list. -/

section LocalSort

variable {α : Type} (r : α → α → Prop) [DecidableRel r]

theorem pairwise_orderedInsert_local (hto : ∀ a b, ¬ r a b → r b a) (a : α) :
    ∀ l : List α,
      (∀ x ∈ a :: l, ∀ y ∈ a :: l, ∀ z ∈ a :: l, r x y → r y z → r x z) →
      l.Pairwise r → (l.orderedInsert r a).Pairwise r := by
  intro l
  induction l with
  | nil =>
    intro _ _
    simp [List.orderedInsert]
  | cons b l ih =>
    intro ht hp
    by_cases h : r a b
    · rw [List.orderedInsert, if_pos h]
      refine List.pairwise_cons.2 ⟨?_, hp⟩
      intro x hx
      rcases List.mem_cons.1 hx with rfl | hx
      · exact h
      · exact ht a (by simp) b (by simp) x (by simp [hx])
          h ((List.pairwise_cons.1 hp).1 x hx)
    · rw [List.orderedInsert, if_neg h]
      refine List.pairwise_cons.2 ⟨?_, ?_⟩
      · intro x hx
        rcases (List.mem_orderedInsert r).1 hx with rfl | hx
        · exact hto x b h
        · exact (List.pairwise_cons.1 hp).1 x hx
      · refine ih ?_ (List.pairwise_cons.1 hp).2
        intro x hx y hy z hz
        refine ht x ?_ y ?_ z ?_ <;>
          first
            | (rcases List.mem_cons.1 hx with rfl | hx
               · simp
               · simp [hx])
            | (rcases List.mem_cons.1 hy with rfl | hy
               · simp
               · simp [hy])
            | (rcases List.mem_cons.1 hz with rfl | hz
               · simp
               · simp [hz])

theorem pairwise_insertionSort_local (hto : ∀ a b, ¬ r a b → r b a) :
    ∀ l : List α,
      (∀ x ∈ l, ∀ y ∈ l, ∀ z ∈ l, r x y → r y z → r x z) →
      (l.insertionSort r).Pairwise r := by
  intro l
  induction l with
  | nil =>
    intro _
    simp
  | cons b l ih =>
    intro ht
    rw [List.insertionSort]
    refine pairwise_orderedInsert_local r hto b (l.insertionSort r) ?_ ?_
    · intro x hx y hy z hz
      have hmem : ∀ w, w ∈ b :: l.insertionSort r → w ∈ b :: l := by
        intro w hw
        rcases List.mem_cons.1 hw with rfl | hw
        · simp
        · simp [(List.mem_insertionSort r).1 hw]
      exact ht x (hmem x hx) y (hmem y hy) z (hmem z hz)
    · refine ih ?_
      intro x hx y hy z hz
      exact ht x (by simp [hx]) y (by simp [hy]) z (by simp [hz])

theorem chain'_orderedInsert_local (hto : ∀ a b, ¬ r a b → r b a) (a : α) :
    ∀ l : List α, l.Chain' r → (l.orderedInsert r a).Chain' r := by
  intro l
  induction l with
  | nil =>
    intro _
    simp [List.orderedInsert]
  | cons b l ih =>
    intro hl
    by_cases h : r a b
    · rw [List.orderedInsert, if_pos h]
      exact List.chain'_cons.2 ⟨h, hl⟩
    · rw [List.orderedInsert, if_neg h]
      refine List.chain'_cons'.2 ⟨?_, ih ((List.chain'_cons'.1 hl).2)⟩
      intro y hy
      cases l with
      | nil =>
        simp [List.orderedInsert] at hy
        subst hy
        exact hto a b h
      | cons c l2 =>
        by_cases h2 : r a c
        · rw [List.orderedInsert, if_pos h2] at hy
          simp at hy
          subst hy
          exact hto a b h
        · rw [List.orderedInsert, if_neg h2] at hy
          simp at hy
          subst hy
          exact (List.chain'_cons.1 hl).1

theorem chain'_insertionSort_local (hto : ∀ a b, ¬ r a b → r b a) :
    ∀ l : List α, (l.insertionSort r).Chain' r := by
  intro l
  induction l with
  | nil => simp
  | cons b l ih =>
    rw [List.insertionSort]
    exact chain'_orderedInsert_local r hto b _ ih

omit [DecidableRel r] in
/-- Two pairwise-sorted lists that are permutations of each other coincide,
provided the relation is antisymmetric on the members. -/
theorem sorted_perm_unique_local :
    ∀ l₁ l₂ : List α, l₁.Perm l₂ → l₁.Pairwise r → l₂.Pairwise r →
      (∀ x ∈ l₁, ∀ y ∈ l₁, r x y → r y x → x = y) → l₁ = l₂ := by
  intro l₁
  induction l₁ with
  | nil =>
    intro l₂ hp _ _ _
    exact (List.perm_nil.1 hp.symm).symm
  | cons a t ih =>
    intro l₂ hp hs₁ hs₂ hanti
    cases l₂ with
    | nil => exact absurd (List.perm_nil.1 hp) (by simp)
    | cons b t₂ =>
      have hab : a = b := by
        by_cases hcase : a = b
        · exact hcase
        · have hbmem : b ∈ a :: t := hp.symm.subset (List.mem_cons_self b t₂)
          have hamem : a ∈ b :: t₂ := hp.subset (List.mem_cons_self a t)
          have hbt : b ∈ t := by
            rcases List.mem_cons.1 hbmem with h | h
            · exact absurd h.symm hcase
            · exact h
          have hat : a ∈ t₂ := by
            rcases List.mem_cons.1 hamem with h | h
            · exact absurd h hcase
            · exact h
          have h1 : r a b := (List.pairwise_cons.1 hs₁).1 b hbt
          have h2 : r b a := (List.pairwise_cons.1 hs₂).1 a hat
          exact hanti a (List.mem_cons_self a t) b (by simp [hbt]) h1 h2
      subst hab
      have ht : t = t₂ := by
        refine ih t₂ (hp.cons_inv) (List.pairwise_cons.1 hs₁).2
          (List.pairwise_cons.1 hs₂).2 ?_
        intro x hx y hy
        exact hanti x (by simp [hx]) y (by simp [hy])
      rw [ht]

end LocalSort

/- ### C2: the layer comparator realises the specified chain -/

/-- C2. `StrokeLayer::cmp` is exactly the total order
`Document < Image < Highlighter < UserLayer(n)` with user layers ordered by
`n`: it returns `Less` iff the left layer is strictly below the right one in
that chain, `Equal` iff the two layers are equal, and `Greater` iff the right
layer is strictly below the left one. -/
theorem strokeLayer_cmp_spec (a b : StrokeLayer) :
    (StrokeLayer.cmp a b = Ordering.lt ↔ StrokeLayer.specLt a b) ∧
    (StrokeLayer.cmp a b = Ordering.eq ↔ a = b) ∧
    (StrokeLayer.cmp a b = Ordering.gt ↔ StrokeLayer.specLt b a) := by
  refine ⟨?_, ?_, ?_⟩
  · rw [strokeLayer_cmp_eq_rank, rank_then_eq_lt, specLt_iff_rank]
  · rw [strokeLayer_cmp_eq_rank, rank_then_eq_eq]
    constructor
    · intro h
      exact layerRank_sub_inj h.1 h.2
    · intro h
      subst h
      exact ⟨rfl, rfl⟩
  · rw [strokeLayer_cmp_swap]
    have : ∀ o : Ordering, o.swap = Ordering.gt ↔ o = Ordering.lt := by
      intro o
      cases o <;> simp [Ordering.swap]
    rw [this, strokeLayer_cmp_eq_rank, rank_then_eq_lt, specLt_iff_rank]

/- ### Behaviour of `update_chrono_to_last` on the association list -/

theorem lookup_setChronoT (l : List (StrokeKey × ChronoComponent))
    (key : StrokeKey) (n : Nat) :
    (setChronoT l key n).lookup key = (l.lookup key).map (fun c => { c with t := n }) := by
  induction l with
  | nil => rfl
  | cons p l ih =>
    obtain ⟨k, c⟩ := p
    by_cases h : k = key
    · subst h
      simp [setChronoT, List.lookup, beq_self_eq_true]
    · have hb : (key == k) = false := beq_eq_false_iff_ne.2 (Ne.symm h)
      simp [setChronoT, List.lookup, h, hb, ih]

theorem lookup_setChronoT_ne (l : List (StrokeKey × ChronoComponent))
    (key k2 : StrokeKey) (n : Nat) (h : k2 ≠ key) :
    (setChronoT l key n).lookup k2 = l.lookup k2 := by
  induction l with
  | nil => rfl
  | cons p l ih =>
    obtain ⟨k, c⟩ := p
    by_cases hk2 : k2 = k
    · subst hk2
      have hk : ¬ k2 = key := h
      simp [setChronoT, List.lookup, hk, beq_self_eq_true]
    · have hb : (k2 == k) = false := beq_eq_false_iff_ne.2 hk2
      by_cases hk : k = key
      · subst hk
        simp [setChronoT, List.lookup, hb, ih]
      · simp [setChronoT, List.lookup, hk, hb, ih]

/-- C3 (amended). Under the global-counter invariant (`chrono_counter`
dominates every stored `t`) and provided the counter is strictly below
`u32::MAX` (so the `u32` increment does not wrap — see the wrap
counterexample), `update_chrono_to_last` on a key present in the chrono table
sets that key's `t` to the incremented counter — strictly above the prior `t`
of every key — keeps its layer, leaves every other key's chrono component, the
stroke table and the spatial index untouched, and therefore leaves the
comparator's verdict on any pair of untouched keys unchanged. -/
theorem update_chrono_to_last_spec (s : StrokeStore) (key : StrokeKey)
    (cc : ChronoComponent)
    (hinv : ∀ p ∈ s.chrono_components, p.2.t ≤ s.chrono_counter)
    (hlt : s.chrono_counter < 2 ^ 32 - 1)
    (hkey : s.chrono_components.lookup key = some cc) :
    ((update_chrono_to_last s key).chrono_components.lookup key
        = some { t := s.chrono_counter + 1, layer := cc.layer })
    ∧ (∀ p ∈ s.chrono_components, p.2.t < s.chrono_counter + 1)
    ∧ (∀ k2, k2 ≠ key →
        (update_chrono_to_last s key).chrono_components.lookup k2
          = s.chrono_components.lookup k2)
    ∧ (update_chrono_to_last s key).chrono_counter = s.chrono_counter + 1
    ∧ (update_chrono_to_last s key).stroke_components = s.stroke_components
    ∧ (update_chrono_to_last s key).key_tree = s.key_tree
    ∧ (∀ k1 k2, k1 ≠ key → k2 ≠ key →
        chronoOrdering (update_chrono_to_last s key).chrono_components k1 k2
          = chronoOrdering s.chrono_components k1 k2) := by
  have hmod : (s.chrono_counter + 1) % 2 ^ 32 = s.chrono_counter + 1 :=
    Nat.mod_eq_of_lt (by omega)
  have hupd : update_chrono_to_last s key =
      { s with
        chrono_counter := s.chrono_counter + 1,
        chrono_components := setChronoT s.chrono_components key (s.chrono_counter + 1) } := by
    simp only [update_chrono_to_last, hkey, hmod]
  refine ⟨?_, ?_, ?_, ?_, ?_, ?_, ?_⟩
  · rw [hupd]
    simp only [lookup_setChronoT, hkey]
    rfl
  · intro p hp
    exact Nat.lt_succ_of_le (hinv p hp)
  · intro k2 h2
    rw [hupd]
    exact lookup_setChronoT_ne _ _ _ _ h2
  · rw [hupd]
  · rw [hupd]
  · rw [hupd]
  · intro k1 k2 h1 h2
    rw [hupd]
    unfold chronoOrdering
    rw [lookup_setChronoT_ne _ _ _ _ h1, lookup_setChronoT_ne _ _ _ _ h2]

/-- Concrete store used to witness the claims about `update_chrono_to_last`. -/
def exStoreC3 : StrokeStore :=
  { stroke_components := [7],
    chrono_components := [(7, ChronoComponent.new 2 .document)],
    chrono_counter := 5,
    key_tree := fun _ => [] }

theorem update_chrono_to_last_spec_witness :
    (∀ p ∈ exStoreC3.chrono_components, p.2.t ≤ exStoreC3.chrono_counter)
    ∧ exStoreC3.chrono_counter < 2 ^ 32 - 1
    ∧ exStoreC3.chrono_components.lookup 7 = some (ChronoComponent.new 2 .document)
    ∧ (update_chrono_to_last exStoreC3 7).chrono_components.lookup 7
        = some { t := exStoreC3.chrono_counter + 1, layer := StrokeLayer.document } :=
  ⟨by decide, by decide, by decide,
    (update_chrono_to_last_spec exStoreC3 7 (ChronoComponent.new 2 .document)
      (by decide) (by decide) (by decide)).1⟩

/-- Store at the wrap-around point: the counter sits at `u32::MAX` and the
single key's `t` equals it, so the global-counter invariant holds. -/
def exStoreWrap : StrokeStore :=
  { stroke_components := [0],
    chrono_components := [(0, ChronoComponent.new (2 ^ 32 - 1) .document)],
    chrono_counter := 2 ^ 32 - 1,
    key_tree := fun _ => [] }

/-- C3 as stated is false: at `chrono_counter = u32::MAX` the invariant
hypothesis holds, yet the `u32` increment wraps (release mode) and the
promoted key's new `t` is `0` — not strictly greater than the prior `t` of
every key in the store. -/
theorem update_chrono_to_last_wrap_counterexample :
    ¬ (∀ (s : StrokeStore) (key : StrokeKey) (cc : ChronoComponent),
        (∀ p ∈ s.chrono_components, p.2.t ≤ s.chrono_counter) →
        s.chrono_components.lookup key = some cc →
        ∃ cc2, (update_chrono_to_last s key).chrono_components.lookup key = some cc2
          ∧ ∀ p ∈ s.chrono_components, p.2.t < cc2.t) := by
  intro h
  obtain ⟨cc2, hl, hp⟩ := h exStoreWrap 0 (ChronoComponent.new (2 ^ 32 - 1) .document)
    (by decide) (by decide)
  have hl2 : (update_chrono_to_last exStoreWrap 0).chrono_components.lookup 0
      = some (ChronoComponent.new 0 .document) := by decide
  rw [hl2] at hl
  have hc : cc2 = ChronoComponent.new 0 .document := (Option.some_inj.1 hl).symm
  have hlt2 := hp (0, ChronoComponent.new (2 ^ 32 - 1) .document) (by decide)
  rw [hc] at hlt2
  exact absurd hlt2 (by decide)

/-- C7. `update_chrono_to_last` on a key absent from the chrono table is a
strict no-op: the resulting store is the old store, every component (chrono
table, counter, stroke table, spatial index) included. (The Rust code only
emits a debug-level log message on this path and reports no failure.) -/
theorem update_chrono_to_last_stale_noop (s : StrokeStore) (key : StrokeKey)
    (h : s.chrono_components.lookup key = none) :
    update_chrono_to_last s key = s := by
  simp only [update_chrono_to_last, h]

/-- Concrete store used to witness the stale-key claim. -/
def exStoreC7 : StrokeStore :=
  { stroke_components := [3],
    chrono_components := [(3, ChronoComponent.new 1 .highlighter)],
    chrono_counter := 4,
    key_tree := fun _ => [3] }

theorem update_chrono_to_last_stale_noop_witness :
    exStoreC7.chrono_components.lookup 9 = none
    ∧ update_chrono_to_last exStoreC7 9 = exStoreC7 :=
  ⟨by decide, update_chrono_to_last_stale_noop exStoreC7 9 (by decide)⟩

/- ### C1: order produced by `keys_sorted_chrono` -/

/-- C1 (amended). On a store whose every stroke key has a chrono component (the
intended cross-table consistency invariant), `keys_sorted_chrono` returns a
permutation of the keys of the stroke-components table in which a key with a
strictly smaller layer comes first and, within equal layer, a key with a
strictly smaller `t` comes first: for positions `i < j` with components `ci`
and `cj`, the later key's layer is never strictly below the earlier key's, and
on equal layers `ci.t ≤ cj.t`. (Without the invariant this fails: a key
missing its chrono component makes the comparator answer `Equal` against both
sides of an ordered pair, see the counterexample.) -/
theorem keys_sorted_chrono_spec (s : StrokeStore)
    (hfull : ∀ k ∈ s.stroke_components, (s.chrono_components.lookup k).isSome) :
    (keys_sorted_chrono s).Perm s.stroke_components
    ∧ ∀ (i j : Nat) (hi : i < (keys_sorted_chrono s).length)
        (hj : j < (keys_sorted_chrono s).length), i < j →
        ∀ ci cj, s.chrono_components.lookup ((keys_sorted_chrono s)[i]) = some ci →
          s.chrono_components.lookup ((keys_sorted_chrono s)[j]) = some cj →
          ¬ StrokeLayer.specLt cj.layer ci.layer
            ∧ (cj.layer = ci.layer → ci.t ≤ cj.t) := by
  have htrans : ∀ x ∈ s.stroke_components, ∀ y ∈ s.stroke_components,
      ∀ z ∈ s.stroke_components,
      chronoLe s.chrono_components x y → chronoLe s.chrono_components y z →
        chronoLe s.chrono_components x z := by
    intro x hx y hy z hz hxy hyz
    obtain ⟨cx, hcx⟩ := Option.isSome_iff_exists.1 (hfull x hx)
    obtain ⟨cy, hcy⟩ := Option.isSome_iff_exists.1 (hfull y hy)
    obtain ⟨cz, hcz⟩ := Option.isSome_iff_exists.1 (hfull z hz)
    exact chronoLe_trans_of_some hcx hcy hcz hxy hyz
  have hpair : (keys_sorted_chrono s).Pairwise (chronoLe s.chrono_components) :=
    pairwise_insertionSort_local _ (chronoLe_total s.chrono_components)
      s.stroke_components htrans
  refine ⟨List.perm_insertionSort _ _, ?_⟩
  intro i j hi hj hij ci cj hci hcj
  have hr := List.pairwise_iff_getElem.1 hpair i j hi hj hij
  unfold chronoLe at hr
  rw [chronoOrdering_of_some hci hcj, compare_then_ne_gt, compare_then_ne_gt,
    natCompare_ne_gt] at hr
  constructor
  · rw [specLt_iff_rank]
    omega
  · intro hl
    have h1 := congrArg layerRank hl
    have h2 := congrArg layerSub hl
    omega

/-- Concrete store used to witness `keys_sorted_chrono_spec`. -/
def exStoreC1 : StrokeStore :=
  { stroke_components := [1, 0],
    chrono_components := [(0, ChronoComponent.new 1 .document),
      (1, ChronoComponent.new 0 (.userLayer 0))],
    chrono_counter := 1,
    key_tree := fun _ => [] }

theorem keys_sorted_chrono_spec_witness :
    (∀ k ∈ exStoreC1.stroke_components, (exStoreC1.chrono_components.lookup k).isSome)
    ∧ (keys_sorted_chrono exStoreC1).Perm exStoreC1.stroke_components :=
  ⟨by decide, (keys_sorted_chrono_spec exStoreC1 (by decide)).1⟩

/-- Store refuting C1 as universally stated: key `11` is in the stroke table
but has no chrono component, so the comparator answers `Equal` between it and
both of its neighbours and the sort never compares `10` with `12` directly. -/
def exStoreC1cex : StrokeStore :=
  { stroke_components := [10, 11, 12],
    chrono_components := [(10, ChronoComponent.new 5 (.userLayer 0)),
      (12, ChronoComponent.new 1 .document)],
    chrono_counter := 5,
    key_tree := fun _ => [] }

/-- C1 as stated — *every* store state orders every chrono-carrying pair by
`(layer, t)` — is false: in `exStoreC1cex` the output keeps table order
`[10, 11, 12]`, placing the `UserLayer(0)` key `10` before the `Document` key
`12` although `Document` is the strictly smaller layer. This is the behaviour
of the real comparator, which returns `Equal` whenever either key lacks a
chrono component. -/
theorem keys_sorted_chrono_claim_counterexample :
    ¬ (∀ s : StrokeStore,
        (keys_sorted_chrono s).Perm s.stroke_components
        ∧ ∀ (i j : Nat) (hi : i < (keys_sorted_chrono s).length)
            (hj : j < (keys_sorted_chrono s).length), i < j →
            ∀ ci cj, s.chrono_components.lookup ((keys_sorted_chrono s)[i]) = some ci →
              s.chrono_components.lookup ((keys_sorted_chrono s)[j]) = some cj →
              ¬ StrokeLayer.specLt cj.layer ci.layer
                ∧ (cj.layer = ci.layer → ci.t ≤ cj.t)) := by
  intro h
  have h2 := (h exStoreC1cex).2 0 2 (by decide) (by decide) (by decide)
    (ChronoComponent.new 5 (.userLayer 0)) (ChronoComponent.new 1 .document)
    (by decide) (by decide)
  exact h2.1 trivial

/- ### C6: the two-stroke scenario -/

/-- C6. In a store holding exactly the two strokes `kA` (layer `UserLayer(0)`)
and `kB` (layer `Document`), whatever their `t` values and whichever of the two
iteration orders the stroke table presents, `keys_sorted_chrono` returns
`[kB, kA]`. -/
theorem keys_sorted_chrono_two_strokes (s : StrokeStore) (kA kB tA tB : Nat)
    (hkeys : s.stroke_components = [kA, kB] ∨ s.stroke_components = [kB, kA])
    (hA : s.chrono_components.lookup kA = some (ChronoComponent.new tA (.userLayer 0)))
    (hB : s.chrono_components.lookup kB = some (ChronoComponent.new tB .document)) :
    keys_sorted_chrono s = [kB, kA] := by
  have hBA : chronoLe s.chrono_components kB kA := by
    unfold chronoLe
    rw [chronoOrdering_of_some hB hA]
    have h0 : compare (layerRank (ChronoComponent.new tB .document).layer)
        (layerRank (ChronoComponent.new tA (.userLayer 0)).layer) = Ordering.lt :=
      Nat.compare_eq_lt.2 (show (0 : Nat) < 3 by decide)
    rw [h0]
    simp [Ordering.then]
  have hAB : ¬ chronoLe s.chrono_components kA kB := by
    unfold chronoLe
    rw [chronoOrdering_of_some hA hB, not_not]
    have h0 : compare (layerRank (ChronoComponent.new tA (.userLayer 0)).layer)
        (layerRank (ChronoComponent.new tB .document).layer) = Ordering.gt :=
      Nat.compare_eq_gt.2 (show (0 : Nat) < 3 by decide)
    rw [h0]
    rfl
  rcases hkeys with hk | hk
  · unfold keys_sorted_chrono
    rw [hk]
    simp only [List.insertionSort, List.orderedInsert]
    rw [if_neg hAB]
  · unfold keys_sorted_chrono
    rw [hk]
    simp only [List.insertionSort, List.orderedInsert]
    rw [if_pos hBA]

/-- Concrete store used to witness the two-stroke scenario. -/
def exStoreC6 : StrokeStore :=
  { stroke_components := [4, 9],
    chrono_components := [(4, ChronoComponent.new 100 (.userLayer 0)),
      (9, ChronoComponent.new 200 .document)],
    chrono_counter := 200,
    key_tree := fun _ => [] }

theorem keys_sorted_chrono_two_strokes_witness :
    (exStoreC6.stroke_components = [4, 9] ∨ exStoreC6.stroke_components = [9, 4])
    ∧ keys_sorted_chrono exStoreC6 = [9, 4] :=
  ⟨Or.inl rfl,
    keys_sorted_chrono_two_strokes exStoreC6 4 9 100 200 (Or.inl rfl)
      (by decide) (by decide)⟩

/- ### C4: (in)stability of the sort -/

/-- Store with two keys whose chrono components are identical, so the
comparator answers `Equal` on the pair. -/
def exStoreC4 : StrokeStore :=
  { stroke_components := [0, 1],
    chrono_components := [(0, ChronoComponent.new 3 .document),
      (1, ChronoComponent.new 3 .document)],
    chrono_counter := 3,
    key_tree := fun _ => [] }

/-- C4 as stated is false: `keys_sorted_chrono` sorts with
`par_sort_unstable_by`, and the contract of an unstable sort
(`UnstableSortResult`) does *not* force comparator-equal keys to keep their
input order. On `exStoreC4`, whose two keys compare `Equal`, the reversed
output `[1, 0]` is also a permitted sort result, so "no reorder" is not
guaranteed. -/
theorem keys_sorted_chrono_stability_counterexample :
    ¬ (∀ out, UnstableSortResult (chronoOrdering exStoreC4.chrono_components)
        exStoreC4.stroke_components out → out = exStoreC4.stroke_components) := by
  intro h
  have h2 := h [1, 0] ⟨by decide, fun _ => List.chain'_pair.2 (by decide)⟩
  exact absurd h2 (by decide)

/-- C4 (amended). The sort in `keys_sorted_chrono` is *unstable*
(`par_sort_unstable_by`): what holds of its result is the unstable-sort
contract — the output is always a permutation of the stroke keys and, when
the chrono comparator is a consistent total order on them (as with full
chrono coverage; with a missing component the comparator is non-transitive
and rayon leaves the order unspecified), additionally adjacently
non-descending — while the relative order of comparator-equal keys is left
unspecified by the sort's contract. The executable model satisfies that
contract for every store state. -/
theorem keys_sorted_chrono_unstable_contract (s : StrokeStore) :
    UnstableSortResult (chronoOrdering s.chrono_components) s.stroke_components
      (keys_sorted_chrono s) := by
  refine ⟨List.perm_insertionSort _ _, fun _ => ?_⟩
  exact chain'_insertionSort_local (chronoLe s.chrono_components)
    (chronoLe_total s.chrono_components) s.stroke_components

/- ### C5: consistency of the bounds-restricted sort with the full sort -/

/-- C5 (amended). Provided every stroke key has a chrono component, the
spatial hits for `bounds` are distinct keys of the stroke table, and no two
distinct hits compare `Equal` (distinct `(layer, t)` pairs — with a tie the
two unstable sorts may legitimately disagree, see the counterexample),
restricting the full chronological sort to the hits gives exactly
`keys_sorted_chrono_intersecting_bounds`. -/
theorem keys_sorted_chrono_intersecting_consistent (s : StrokeStore) (bounds : AABB)
    (hfull : ∀ k ∈ s.stroke_components, (s.chrono_components.lookup k).isSome)
    (hsub : ∀ k ∈ s.key_tree bounds, k ∈ s.stroke_components)
    (hndk : s.stroke_components.Nodup)
    (hndh : (s.key_tree bounds).Nodup)
    (hnotie : ∀ a ∈ s.key_tree bounds, ∀ b ∈ s.key_tree bounds,
        chronoOrdering s.chrono_components a b = Ordering.eq → a = b) :
    (keys_sorted_chrono s).filter (fun k => decide (k ∈ s.key_tree bounds))
      = keys_sorted_chrono_intersecting_bounds s bounds := by
  have htrans : ∀ x ∈ s.stroke_components, ∀ y ∈ s.stroke_components,
      ∀ z ∈ s.stroke_components,
      chronoLe s.chrono_components x y → chronoLe s.chrono_components y z →
        chronoLe s.chrono_components x z := by
    intro x hx y hy z hz hxy hyz
    obtain ⟨cx, hcx⟩ := Option.isSome_iff_exists.1 (hfull x hx)
    obtain ⟨cy, hcy⟩ := Option.isSome_iff_exists.1 (hfull y hy)
    obtain ⟨cz, hcz⟩ := Option.isSome_iff_exists.1 (hfull z hz)
    exact chronoLe_trans_of_some hcx hcy hcz hxy hyz
  have hpF : (keys_sorted_chrono s).Pairwise (chronoLe s.chrono_components) :=
    pairwise_insertionSort_local _ (chronoLe_total s.chrono_components)
      s.stroke_components htrans
  have hpFf : ((keys_sorted_chrono s).filter
      (fun k => decide (k ∈ s.key_tree bounds))).Pairwise (chronoLe s.chrono_components) :=
    hpF.filter _
  have hpG : (keys_sorted_chrono_intersecting_bounds s bounds).Pairwise
      (chronoLe s.chrono_components) :=
    pairwise_insertionSort_local _ (chronoLe_total s.chrono_components)
      (s.key_tree bounds) (fun x hx y hy z hz =>
        htrans x (hsub x hx) y (hsub y hy) z (hsub z hz))
  have hperm : ((keys_sorted_chrono s).filter
        (fun k => decide (k ∈ s.key_tree bounds))).Perm
      (keys_sorted_chrono_intersecting_bounds s bounds) := by
    have h1 : ((keys_sorted_chrono s).filter
          (fun k => decide (k ∈ s.key_tree bounds))).Perm
        (s.stroke_components.filter (fun k => decide (k ∈ s.key_tree bounds))) :=
      (List.perm_insertionSort _ _).filter _
    have h2 : (s.stroke_components.filter
          (fun k => decide (k ∈ s.key_tree bounds))).Perm (s.key_tree bounds) := by
      rw [List.perm_ext_iff_of_nodup (hndk.filter _) hndh]
      intro a
      simp only [List.mem_filter, decide_eq_true_eq]
      exact ⟨fun h => h.2, fun h => ⟨hsub a h, h⟩⟩
    have h3 : (keys_sorted_chrono_intersecting_bounds s bounds).Perm
        (s.key_tree bounds) := List.perm_insertionSort _ _
    exact (h1.trans h2).trans h3.symm
  refine sorted_perm_unique_local (chronoLe s.chrono_components) _ _ hperm hpFf hpG ?_
  intro x hx y hy hxy hyx
  have hxh : x ∈ s.key_tree bounds := by
    have := List.mem_filter.1 hx
    exact of_decide_eq_true this.2
  have hyh : y ∈ s.key_tree bounds := by
    have := List.mem_filter.1 hy
    exact of_decide_eq_true this.2
  have heq : chronoOrdering s.chrono_components x y = Ordering.eq := by
    unfold chronoLe at hxy hyx
    rw [chronoOrdering_swap] at hyx
    cases h : chronoOrdering s.chrono_components x y
    · rw [h] at hyx
      exact absurd rfl hyx
    · rfl
    · rw [h] at hxy
      exact absurd rfl hxy
  exact hnotie x hxh y hyh heq

/-- Concrete store used to witness the order-consistency theorem. -/
def exStoreC5 : StrokeStore :=
  { stroke_components := [0, 1],
    chrono_components := [(0, ChronoComponent.new 1 .document),
      (1, ChronoComponent.new 2 .document)],
    chrono_counter := 2,
    key_tree := fun _ => [1, 0] }

/-- A concrete bounds value (the coordinates are irrelevant to the spatial
index model, which is carried opaquely). -/
def exBounds : AABB := { mins := (0, 0), maxs := (1, 1) }

theorem keys_sorted_chrono_intersecting_consistent_witness :
    (∀ a ∈ exStoreC5.key_tree exBounds, ∀ b ∈ exStoreC5.key_tree exBounds,
        chronoOrdering exStoreC5.chrono_components a b = Ordering.eq → a = b)
    ∧ (keys_sorted_chrono exStoreC5).filter
        (fun k => decide (k ∈ exStoreC5.key_tree exBounds))
      = keys_sorted_chrono_intersecting_bounds exStoreC5 exBounds :=
  ⟨by decide,
    keys_sorted_chrono_intersecting_consistent exStoreC5 exBounds (by decide)
      (by decide) (by decide) (by decide) (by decide)⟩

/-- Store refuting C5 as universally stated: the two keys tie (`Equal`
chrono components), the stroke table iterates them as `[0, 1]` while the
spatial index reports them as `[1, 0]`; both sorts keep their own input
order, so the restriction of the full sort disagrees with the restricted
sort. -/
def exStoreC5cex : StrokeStore :=
  { stroke_components := [0, 1],
    chrono_components := [(0, ChronoComponent.new 0 .document),
      (1, ChronoComponent.new 0 .document)],
    chrono_counter := 0,
    key_tree := fun _ => [1, 0] }

/-- C5 as stated — order-consistency for *every* store state and bounds — is
false at `exStoreC5cex`: the restriction of `keys_sorted_chrono` to the hits
is `[0, 1]` but `keys_sorted_chrono_intersecting_bounds` returns `[1, 0]`. -/
theorem keys_sorted_chrono_intersecting_claim_counterexample :
    ¬ (∀ (s : StrokeStore) (bounds : AABB),
        (keys_sorted_chrono s).filter (fun k => decide (k ∈ s.key_tree bounds))
          = keys_sorted_chrono_intersecting_bounds s bounds) := by
  intro h
  have h2 := h exStoreC5cex exBounds
  exact absurd h2 (by decide)

/- ### The engine task loop (`engine.rs`) -/

/-- Modelled from the spec: `WidgetFlags` (defined in `widgetflags.rs`, which is
not among the provided sources) is the per-call side-effect summary handed back
to the UI layer; its default requests no side effects. Only the flags that
`process_received_task` in `engine.rs` touches are modelled. -/
structure WidgetFlags where
  redraw : Bool
  indicate_changed_store : Bool
  quit : Bool
deriving DecidableEq

/-- Rust `WidgetFlags::default()`: no side effect requested. -/
def WidgetFlags.default : WidgetFlags :=
  { redraw := false, indicate_changed_store := false, quit := false }

/-- Rust `EngineTask` from `engine.rs`; the payload type of `GeneratedStrokeImages`
is opaque (its definition lives outside the provided sources). -/
inductive EngineTask (I : Type) where
  | updateStrokeWithImages (key : StrokeKey) (images : I)
  | appendImagesToStroke (key : StrokeKey) (images : I)
  | quit

/-- Rust `RnoteEngine`: the `store` together with the remaining engine fields
(document, penholder, camera, preferences, audio player, channel handles),
bundled opaquely as `rest` since their types are defined outside the provided
sources. -/
structure RnoteEngine (St R : Type) where
  store : St
  rest : R

/-- Modelled from the spec: `StrokeStore::replace_rendering_with_images` and
`StrokeStore::append_rendering_images` (defined in the store's render
component, not among the provided sources) mutate the store's render tables
and may fail; modelled as opaque state transformers returning the new store
and an optional error message. Nothing else is assumed about them. -/
structure RenderOps (St I : Type) where
  replace_rendering_with_images : St → StrokeKey → I → St × Option String
  append_rendering_images : St → StrokeKey → I → St × Option String

/-- Rust `RnoteEngine::process_received_task`, arm for arm: on the two image tasks
the store call's error (if any) is only logged and `redraw` and
`indicate_changed_store` are set unconditionally; on `Quit` only the `quit`
flag is set. -/
def process_received_task {St R I : Type} (ops : RenderOps St I)
    (e : RnoteEngine St R) (task : EngineTask I) : RnoteEngine St R × WidgetFlags :=
  let widget_flags := WidgetFlags.default
  match task with
  | .updateStrokeWithImages key images =>
    let result := ops.replace_rendering_with_images e.store key images
    ({ e with store := result.1 },
      { widget_flags with redraw := true, indicate_changed_store := true })
  | .appendImagesToStroke key images =>
    let result := ops.append_rendering_images e.store key images
    ({ e with store := result.1 },
      { widget_flags with redraw := true, indicate_changed_store := true })
  | .quit => (e, { widget_flags with quit := true })

/-- C8. Processing the `Quit` task leaves the engine — store and all other
state — exactly unchanged and returns the default flags with only `quit` set:
no rendering result is applied. -/
theorem process_received_task_quit {St R I : Type} (ops : RenderOps St I)
    (e : RnoteEngine St R) :
    process_received_task ops e EngineTask.quit
      = (e, { redraw := false, indicate_changed_store := false, quit := true }) :=
  rfl

/-- C9's geometry context. The document bounds, page format, page splitting
(`split_extended_origin_aligned`), rendered-keys query, per-stroke bounds and
the `AABB` operations are all defined outside the provided sources
(`Document`, `rnote-compose`, `p2d`) and are carried as opaque data: the
claim's truth depends only on the control flow of `engine.rs`. -/
structure PageGeometry where
  doc_bounds : AABB
  format_width : ℚ
  format_height : ℚ
  split_extended_origin_aligned : AABB → ℚ × ℚ → List AABB
  stroke_keys_as_rendered : List StrokeKey
  strokes_bounds : List StrokeKey → List AABB
  intersects : AABB → AABB → Bool
  merged : AABB → AABB → AABB
  new_invalid : AABB

/-- Rust `RnoteEngine::pages_bounds_w_content`: split the document into pages, keep
the pages intersecting at least one stroke's bounds, and fall back to the
single origin page when none does. -/
def pages_bounds_w_content (g : PageGeometry) : List AABB :=
  let doc_bounds := g.doc_bounds
  let keys := g.stroke_keys_as_rendered
  let strokes_bounds := g.strokes_bounds keys
  let pages_bounds := (g.split_extended_origin_aligned doc_bounds
      (g.format_width, g.format_height)).filter
    (fun page_bounds =>
      strokes_bounds.any (fun stroke_bounds => g.intersects stroke_bounds page_bounds))
  if pages_bounds.isEmpty then
    [{ mins := (0, 0), maxs := (g.format_width, g.format_height) }]
  else
    pages_bounds

/-- Rust `RnoteEngine::bounds_w_content_extended`: `None` when there are no content
pages, otherwise the merge of all of them. -/
def bounds_w_content_extended (g : PageGeometry) : Option AABB :=
  let pages_bounds := pages_bounds_w_content g
  if pages_bounds.isEmpty then none
  else some (pages_bounds.foldl g.merged g.new_invalid)

/-- C9. `pages_bounds_w_content` never returns the empty vector — the explicit
fallback hands back the origin page — and consequently
`bounds_w_content_extended`'s `None` branch is dead: it always returns
`Some`. -/
theorem pages_bounds_w_content_ne_nil (g : PageGeometry) :
    pages_bounds_w_content g ≠ [] ∧ (bounds_w_content_extended g).isSome = true := by
  have key : ∀ (l : List AABB) (fb : AABB), (if l.isEmpty then [fb] else l) ≠ [] := by
    intro l fb
    cases l <;> simp
  have h1 : pages_bounds_w_content g ≠ [] := key _ _
  refine ⟨h1, ?_⟩
  cases hpl : pages_bounds_w_content g with
  | nil => exact absurd hpl h1
  | cons a t =>
    show (if (pages_bounds_w_content g).isEmpty then none
      else some ((pages_bounds_w_content g).foldl g.merged g.new_invalid)).isSome = true
    rw [hpl]
    rfl

/-- C10. Processing an `UpdateStrokeWithImages` or `AppendImagesToStroke` task
returns flags with `redraw` and `indicate_changed_store` both set, whatever
the outcome (success or logged error) of the underlying store call — the
theorem quantifies over every possible behaviour of those calls. -/
theorem process_received_task_images_flags {St R I : Type} (ops : RenderOps St I)
    (e : RnoteEngine St R) (key : StrokeKey) (images : I) :
    ((process_received_task ops e (.updateStrokeWithImages key images)).2.redraw = true
      ∧ (process_received_task ops e
          (.updateStrokeWithImages key images)).2.indicate_changed_store = true)
    ∧ ((process_received_task ops e (.appendImagesToStroke key images)).2.redraw = true
      ∧ (process_received_task ops e
          (.appendImagesToStroke key images)).2.indicate_changed_store = true) :=
  ⟨⟨rfl, rfl⟩, ⟨rfl, rfl⟩⟩

end Rnote
